import Mathlib

/-!
Shallow embedding of the NEO repository's core: the record models
(`src/models.py`), the filter combinators (`src/filters.py`), the linked
store (`src/neo/database.py`) and the result limiter.

Python float values are modelled by `PyFloat` (an exact rational value, a
signed infinity, or the not-a-number sentinel); Python object references are
modelled by positions into the store's object list, with the heap of mutable
objects passed as explicit list state.  Python code whose uncaught exceptions
matter is modelled in `Except PyError`.
-/

namespace NEO

/-- The Python exceptions the embedded code can raise. -/
inductive PyError where
  | typeError
  | keyError
  | valueError
  | indexError
  | attributeError
  deriving DecidableEq, Repr

/-- A Python float: the not-a-number sentinel, a signed infinity, or a finite
value (modelled exactly as a rational). -/
inductive PyFloat where
  | nan
  | inf (neg : Bool)
  | fin (q : ℚ)
  deriving DecidableEq, Repr

/-- Python `a <= b` on floats: false whenever either side is NaN. -/
def pyLe : PyFloat → PyFloat → Bool
  | .nan, _ => false
  | _, .nan => false
  | .inf true, _ => true
  | _, .inf false => true
  | .inf false, _ => false
  | _, .inf true => false
  | .fin a, .fin b => decide (a ≤ b)

/-- Python `a >= b` on floats: false whenever either side is NaN. -/
def pyGe (a b : PyFloat) : Bool := pyLe b a

/-- Python `a == b` on floats: false whenever either side is NaN
(in particular `nan == nan` is false). -/
def pyEq : PyFloat → PyFloat → Bool
  | .nan, _ => false
  | _, .nan => false
  | .inf s, .inf t => s == t
  | .fin a, .fin b => decide (a = b)
  | _, _ => false

/-- Value of a string of decimal digit characters. -/
def digitsToNat (ds : List Char) : ℕ :=
  ds.foldl (fun a c => a * 10 + (c.toNat - 48)) 0

/-- Consume a PEP 515 digit chain — decimal digits with single underscores
strictly between digits — returning the digits (underscores dropped) and the
unconsumed remainder.  A leading, trailing, or doubled underscore is not
consumed, so the caller's leftover check rejects it as `float()` does. -/
def takeDigitsU : List Char → List Char × List Char
  | [] => ([], [])
  | [c] => if c.isDigit then ([c], []) else ([], [c])
  | c :: '_' :: d :: ds2 =>
    if c.isDigit then
      if d.isDigit then
        let r := takeDigitsU (d :: ds2)
        (c :: r.1, r.2)
      else ([c], '_' :: d :: ds2)
    else ([], c :: '_' :: d :: ds2)
  | c :: '_' :: [] =>
    if c.isDigit then ([c], ['_']) else ([], [c, '_'])
  | c :: c2 :: cs =>
    if c.isDigit then
      let r := takeDigitsU (c2 :: cs)
      (c :: r.1, r.2)
    else ([], c :: c2 :: cs)

/-- Parse an optional exponent part `e[+-]digits` (underscores between
digits allowed) at the head of `cs`, returning the exponent and the
remaining characters; on no (or malformed) exponent marker the input is
returned unconsumed, so the caller's leftover-check fails exactly when
Python's `float()` would. -/
def parseExp (cs : List Char) : Option ℤ × List Char :=
  match cs with
  | [] => (none, [])
  | c :: r =>
    if c = 'e' ∨ c = 'E' then
      let sr : Bool × List Char :=
        match r with
        | '-' :: rr => (true, rr)
        | '+' :: rr => (false, rr)
        | _ => (false, r)
      let ds := (takeDigitsU sr.2).1
      let r3 := (takeDigitsU sr.2).2
      if ds.isEmpty then (none, cs)
      else (some (if sr.1 then -(digitsToNat ds : ℤ) else (digitsToNat ds : ℤ)), r3)
    else (none, cs)

/-- Parse the decimal-number body (after sign stripping) of Python's
`float()` grammar: `digits [. digits] [exponent]`, with at least one digit
in the mantissa and PEP 515 underscores allowed between digits. -/
def parseDecimal (neg : Bool) (cs : List Char) : Except PyError PyFloat :=
  let ipr := takeDigitsU cs
  let ip := ipr.1
  let r1 := ipr.2
  let fr : List Char × List Char :=
    match r1 with
    | '.' :: r => takeDigitsU r
    | _ => ([], r1)
  if ip.isEmpty ∧ fr.1.isEmpty then .error .valueError
  else
    let er := parseExp fr.2
    if er.2.isEmpty then
      let mant : ℚ := (digitsToNat ip : ℚ) + (digitsToNat fr.1 : ℚ) / ((10 : ℚ) ^ fr.1.length)
      let q : ℚ := mant * (10 : ℚ) ^ (er.1.getD 0)
      .ok (.fin (if neg then -q else q))
    else .error .valueError

/-- The ASCII whitespace Python's `float()` strips from either end. -/
def isSpaceChar (c : Char) : Bool :=
  c = ' ' ∨ c = '\t' ∨ c = '\n' ∨ c = '\r' ∨ c = '\x0b' ∨ c = '\x0c'

/-- The character lies in the ASCII plane.  CPython's `float()` first maps
Unicode decimal digits and Unicode spaces to their ASCII counterparts and
rejects any other non-ASCII character, so on ASCII input the embedding
models `float()`'s accept/reject behaviour exactly. -/
def isAsciiChar (c : Char) : Bool := c.toNat < 128

/-- Strip whitespace from both ends of a character list. -/
def trimChars (cs : List Char) : List Char :=
  ((cs.dropWhile isSpaceChar).reverse.dropWhile isSpaceChar).reverse

/-- Python's `float(s)` on a string: strips whitespace, handles an optional
sign and the special tokens `nan` / `inf` / `infinity` (case-insensitive),
otherwise parses a decimal number (PEP 515 underscores included); anything
else raises `ValueError`.  Scope: exact for strings of ASCII characters
(see `isAsciiChar`); finite values are kept as exact rationals rather than
rounded or overflowed to the nearest double. -/
def pyFloatOfString (s : String) : Except PyError PyFloat :=
  let t0 := trimChars s.data
  let nt : Bool × List Char :=
    match t0 with
    | '-' :: r => (true, r)
    | '+' :: r => (false, r)
    | _ => (false, t0)
  let low := nt.2.map Char.toLower
  if low = ['n', 'a', 'n'] then .ok .nan
  else if low = ['i', 'n', 'f'] ∨ low = ['i', 'n', 'f', 'i', 'n', 'i', 't', 'y'] then
    .ok (.inf nt.1)
  else parseDecimal nt.1 nt.2

/-- A Python `datetime` as far as the embedded code observes it: the calendar
date (as a proleptic ordinal, so date comparisons are integer comparisons)
and the minute of the day. -/
structure PyDateTime where
  date : ℤ
  minute : ℕ
  deriving DecidableEq, Repr

/-- `models.NearEarthObject` after construction.  `approaches` holds
positions into the store's approach list (the embedding of the Python
references accumulated by the `NEODatabase` constructor). -/
structure NearEarthObject where
  designation : Option String
  name : Option String
  diameter : PyFloat
  hazardous : Bool
  approaches : List ℕ
  deriving DecidableEq, Repr

/-- `models.CloseApproach` after construction.  `neo` is the reference to the
linked object, modelled as a position into the store's object list (`none`
before linking). -/
structure CloseApproach where
  _designation : Option String
  time : PyDateTime
  distance : PyFloat
  velocity : PyFloat
  neo : Option ℕ
  deriving DecidableEq, Repr

/-- The raw field map `NearEarthObject.__init__` consumes (`info.get` of the
fields it reads; every CSV value is a string, a missing key is `none`). -/
structure NeoInfo where
  pdes : Option String
  name : Option String
  diameter : Option String
  pha : Option String
  deriving DecidableEq, Repr

/-- `NearEarthObject.__init__` (src/models.py): designation and name come
straight from the map (an empty-string name is normalised to `None`, the
designation is not normalised); a missing or empty diameter falls back to
the string `"nan"` before `float()`; `hazardous` is the comparison
`info.get("pha", False) == "Y"`. -/
def NearEarthObject.make (info : NeoInfo) : Except PyError NearEarthObject := do
  let name0 := info.name
  let diameter0 := info.diameter.getD "nan"
  let name := if name0 = some "" then none else name0
  let diameter1 := if diameter0 = "" then "nan" else diameter0
  let diameter ← pyFloatOfString diameter1
  .ok { designation := info.pdes
        name := name
        diameter := diameter
        hazardous := decide (info.pha = some "Y")
        approaches := [] }

/-- The raw field map `CloseApproach.__init__` consumes. -/
structure CadInfo where
  des : Option String
  cd : Option String
  dist : Option String
  v_rel : Option String
  deriving DecidableEq, Repr

/-- English month abbreviation to month number, as used by the
`%Y-%b-%d %H:%M` format. -/
def monthOfAbbrev (s : List Char) : Option ℕ :=
  match s with
  | ['J', 'a', 'n'] => some 1
  | ['F', 'e', 'b'] => some 2
  | ['M', 'a', 'r'] => some 3
  | ['A', 'p', 'r'] => some 4
  | ['M', 'a', 'y'] => some 5
  | ['J', 'u', 'n'] => some 6
  | ['J', 'u', 'l'] => some 7
  | ['A', 'u', 'g'] => some 8
  | ['S', 'e', 'p'] => some 9
  | ['O', 'c', 't'] => some 10
  | ['N', 'o', 'v'] => some 11
  | ['D', 'e', 'c'] => some 12
  | _ => none

/-- All characters are decimal digits and the group is non-empty. -/
def allDigits (cs : List Char) : Bool :=
  !cs.isEmpty && cs.all Char.isDigit

/-- Split a character list on a separator, like `str.split(sep)`: `n`
separators produce `n + 1` groups, empty groups included. -/
def splitOnChar (sep : Char) : List Char → List (List Char)
  | [] => [[]]
  | c :: cs =>
    if c = sep then [] :: splitOnChar sep cs
    else
      match splitOnChar sep cs with
      | [] => [[c]]
      | g :: gs => (c :: g) :: gs

/-- Modelled from the spec: `cd_to_datetime` lives in `helpers.py`, which is
not among the repository's staged sources.  Per the spec it parses a
date/time field in a fixed `YYYY-Mon-DD hh:mm` style format into a UTC
timestamp of minute precision; a missing field (`None` argument) or a string
not of that shape fails.  The date ordinal `y * 416 + m * 32 + d` is
strictly monotone in the calendar date, so date comparisons agree with the
calendar order. -/
def cd_to_datetime (cd : Option String) : Except PyError PyDateTime :=
  match cd with
  | none => .error .typeError
  | some s =>
    match splitOnChar ' ' s.data with
    | [datePart, timePart] =>
      match splitOnChar '-' datePart, splitOnChar ':' timePart with
      | [y, mon, d], [h, mi] =>
        match monthOfAbbrev mon with
        | none => .error .valueError
        | some m =>
          if allDigits y ∧ allDigits d ∧ allDigits h ∧ allDigits mi ∧
              1 ≤ digitsToNat d ∧ digitsToNat d ≤ 31 ∧
              digitsToNat h ≤ 23 ∧ digitsToNat mi ≤ 59 then
            .ok { date := (digitsToNat y : ℤ) * 416 + (m : ℤ) * 32 + (digitsToNat d : ℤ)
                  minute := digitsToNat h * 60 + digitsToNat mi }
          else .error .valueError
      | _, _ => .error .valueError
    | _ => .error .valueError

/-- `CloseApproach.__init__` (src/models.py): the foreign-key designation is
taken as-is, the time is parsed by `cd_to_datetime`, and the distance and
velocity are `float(info.get(key, "nan"))` — a missing field becomes the NaN
sentinel, a present string goes straight to `float()` with no fallback.
`neo` starts as `None`. -/
def CloseApproach.make (info : CadInfo) : Except PyError CloseApproach := do
  let time ← cd_to_datetime info.cd
  let distance ← pyFloatOfString (info.dist.getD "nan")
  let velocity ← pyFloatOfString (info.v_rel.getD "nan")
  .ok { _designation := info.des
        time := time
        distance := distance
        velocity := velocity
        neo := none }

/-- The comparison operators `create_filters` draws from the `operator`
module: `operator.eq`, `operator.ge`, `operator.le`. -/
inductive Cmp where
  | eq
  | ge
  | le
  deriving DecidableEq, Repr

/-- A comparison operator applied to Python floats (`op(a, b)`). -/
def cmpFloat : Cmp → PyFloat → PyFloat → Bool
  | .eq, a, b => pyEq a b
  | .ge, a, b => pyGe a b
  | .le, a, b => pyLe a b

/-- A comparison operator applied to Python dates (total order on the
ordinal). -/
def cmpDate : Cmp → ℤ → ℤ → Bool
  | .eq, a, b => decide (a = b)
  | .ge, a, b => decide (b ≤ a)
  | .le, a, b => decide (a ≤ b)

/-- A comparison operator applied to Python booleans (which compare as the
integers 0 and 1). -/
def cmpBool : Cmp → Bool → Bool → Bool
  | .eq, a, b => a == b
  | .ge, a, b => decide (b.toNat ≤ a.toNat)
  | .le, a, b => decide (a.toNat ≤ b.toNat)

/-- `filters.DateFilter`: an `AttributeFilter` whose `get` is
`approach.time.date()`. -/
structure DateFilter where
  op : Cmp
  value : Option ℤ
  deriving DecidableEq, Repr

/-- `DateFilter.get`: the calendar-date portion of the approach time. -/
def DateFilter.get (approach : CloseApproach) : ℤ := approach.time.date

/-- `filters.DistanceFilter`: an `AttributeFilter` whose `get` is
`approach.distance`. -/
structure DistanceFilter where
  op : Cmp
  value : Option PyFloat
  deriving DecidableEq, Repr

/-- `DistanceFilter.get`. -/
def DistanceFilter.get (approach : CloseApproach) : PyFloat := approach.distance

/-- `filters.VelocityFilter`: an `AttributeFilter` whose `get` is
`approach.velocity`. -/
structure VelocityFilter where
  op : Cmp
  value : Option PyFloat
  deriving DecidableEq, Repr

/-- `VelocityFilter.get`. -/
def VelocityFilter.get (approach : CloseApproach) : PyFloat := approach.velocity

/-- Dereference an embedded Python object reference against the store's
object list: `None` raises `AttributeError` on attribute access, a live
reference resolves to the object. -/
def heapGet (neos : List NearEarthObject) (r : Option ℕ) :
    Except PyError NearEarthObject :=
  match r with
  | none => .error .attributeError
  | some i =>
    match neos[i]? with
    | some neo => .ok neo
    | none => .error .indexError

/-- `filters.DiameterFilter`: an `AttributeFilter` whose `get` is
`approach.neo.diameter`. -/
structure DiameterFilter where
  op : Cmp
  value : Option PyFloat
  deriving DecidableEq, Repr

/-- `DiameterFilter.get`: the linked object's diameter. -/
def DiameterFilter.get (neos : List NearEarthObject) (approach : CloseApproach) :
    Except PyError PyFloat :=
  (heapGet neos approach.neo).map NearEarthObject.diameter

/-- `filters.HazardousFilter`: an `AttributeFilter` whose `get` is
`approach.neo.hazardous`. -/
structure HazardousFilter where
  op : Cmp
  value : Option Bool
  deriving DecidableEq, Repr

/-- `HazardousFilter.get`: the linked object's hazard flag. -/
def HazardousFilter.get (neos : List NearEarthObject) (approach : CloseApproach) :
    Except PyError Bool :=
  (heapGet neos approach.neo).map NearEarthObject.hazardous

/-- The `filters.Filter` dataclass: the ten named predicate slots, in
declaration order (which is the order `vars(self)` iterates them). -/
structure Filter where
  date : DateFilter
  start_date : DateFilter
  end_date : DateFilter
  distance_min : DistanceFilter
  distance_max : DistanceFilter
  velocity_min : VelocityFilter
  velocity_max : VelocityFilter
  diameter_min : DiameterFilter
  diameter_max : DiameterFilter
  hazardous : HazardousFilter
  deriving DecidableEq, Repr

/-- One iteration of the `Filter.__call__` loop for a slot whose accessor
cannot raise: skip when the reference value is `None`, otherwise
`result = result and op(get(approach), value)`. -/
def slotAnd {β : Type} (r : Bool) (value : Option β) (evalSlot : β → Bool) : Bool :=
  match value with
  | none => r
  | some v => r && evalSlot v

/-- One iteration of the `Filter.__call__` loop for a slot whose accessor
reaches through `approach.neo` and can raise: Python's `and` short-circuits,
so the accessor runs only while the running result is still true. -/
def slotAndE {β : Type} (r : Bool) (value : Option β) (getE : Except PyError β)
    (evalSlot : β → β → Bool) : Except PyError Bool :=
  match value with
  | none => pure r
  | some v =>
    if r then do
      let x ← getE
      pure (evalSlot x v)
    else pure false

/-- `Filter.__call__`: fold `result = (result and filter_(approach))` over
the ten slots in `vars(self)` order, skipping every slot whose reference
value is `None`, starting from `True`. -/
def Filter.call (neos : List NearEarthObject) (f : Filter)
    (approach : CloseApproach) : Except PyError Bool := do
  let r := true
  let r := slotAnd r f.date.value
    (fun v => cmpDate f.date.op (DateFilter.get approach) v)
  let r := slotAnd r f.start_date.value
    (fun v => cmpDate f.start_date.op (DateFilter.get approach) v)
  let r := slotAnd r f.end_date.value
    (fun v => cmpDate f.end_date.op (DateFilter.get approach) v)
  let r := slotAnd r f.distance_min.value
    (fun v => cmpFloat f.distance_min.op (DistanceFilter.get approach) v)
  let r := slotAnd r f.distance_max.value
    (fun v => cmpFloat f.distance_max.op (DistanceFilter.get approach) v)
  let r := slotAnd r f.velocity_min.value
    (fun v => cmpFloat f.velocity_min.op (VelocityFilter.get approach) v)
  let r := slotAnd r f.velocity_max.value
    (fun v => cmpFloat f.velocity_max.op (VelocityFilter.get approach) v)
  let r ← slotAndE r f.diameter_min.value (DiameterFilter.get neos approach)
    (fun x v => cmpFloat f.diameter_min.op x v)
  let r ← slotAndE r f.diameter_max.value (DiameterFilter.get neos approach)
    (fun x v => cmpFloat f.diameter_max.op x v)
  let r ← slotAndE r f.hazardous.value (HazardousFilter.get neos approach)
    (fun x v => cmpBool f.hazardous.op x v)
  pure r

/-- `filters.create_filters`: wire each optional reference value to its slot
with the operator the source fixes — `eq` for the exact date, `ge` for the
three minimums (start date included), `le` for the three maximums (end date
included), `eq` for the hazard flag. -/
def create_filters (date start_date end_date : Option ℤ)
    (distance_min distance_max velocity_min velocity_max : Option PyFloat)
    (diameter_min diameter_max : Option PyFloat)
    (hazardous : Option Bool) : Filter :=
  { date := ⟨.eq, date⟩
    start_date := ⟨.ge, start_date⟩
    end_date := ⟨.le, end_date⟩
    distance_min := ⟨.ge, distance_min⟩
    distance_max := ⟨.le, distance_max⟩
    velocity_min := ⟨.ge, velocity_min⟩
    velocity_max := ⟨.le, velocity_max⟩
    diameter_min := ⟨.ge, diameter_min⟩
    diameter_max := ⟨.le, diameter_max⟩
    hazardous := ⟨.eq, hazardous⟩ }

/-- `itertools.islice(iterator, stop)` run to exhaustion on a list-modelled
iterator: the values it yields and the part of the source left unconsumed.
`stop = None` passes everything through; `stop = n` yields the first `n`
elements and consumes exactly those. -/
def islice {α : Type} (xs : List α) (stop : Option ℕ) : List α × List α :=
  match stop with
  | none => (xs, [])
  | some n => (xs.take n, xs.drop n)

/-- `filters.limit`: `if n == 0: n = None` then `islice(iterator, n)`.
`islice` rejects a negative stop with `ValueError` at call time (its stop
must be `None` or a non-negative integer), before anything is consumed. -/
def limit {α : Type} (xs : List α) (n : Option ℤ) :
    Except PyError (List α × List α) :=
  let n1 := if n = some 0 then none else n
  match n1 with
  | none => .ok (islice xs none)
  | some m => if m < 0 then .error .valueError else .ok (islice xs (some m.toNat))

/-- Lookup in the dict comprehension
`{neo.designation: i for i, neo in enumerate(neos) if neo.designation is not None}`:
walk the objects in order, keeping the position of the latest non-`None`
designation equal to the key (`last write wins`). -/
def desIndexGo (d : String) : ℕ → Option ℕ → List NearEarthObject → Option ℕ
  | _, acc, [] => acc
  | i, acc, neo :: rest =>
    desIndexGo d (i + 1)
      (match neo.designation with
        | none => acc
        | some des => if des = d then some i else acc) rest

/-- The store's `_neosByDes` index, as a lookup function. -/
def neosByDes (neos : List NearEarthObject) (d : String) : Option ℕ :=
  desIndexGo d 0 none neos

/-- Lookup in `{neo.name: i for i, neo in enumerate(neos) if neo.name is not None}`. -/
def nameIndexGo (nm : String) : ℕ → Option ℕ → List NearEarthObject → Option ℕ
  | _, acc, [] => acc
  | i, acc, neo :: rest =>
    nameIndexGo nm (i + 1)
      (match neo.name with
        | none => acc
        | some s => if s = nm then some i else acc) rest

/-- The store's `_neosByName` index, as a lookup function. -/
def neosByName (neos : List NearEarthObject) (nm : String) : Option ℕ :=
  nameIndexGo nm 0 none neos

/-- The linking loop of `NEODatabase.__init__`: for each approach (position
`j` in the input), resolve its foreign key in the designation index (a miss,
including a `None` key, raises `KeyError`), set `approach.neo` to the
resolved position and append `j` to that object's `approaches`. -/
def linkLoop (byDes : String → Option ℕ) :
    ℕ → List CloseApproach → List NearEarthObject → List CloseApproach →
    Except PyError (List NearEarthObject × List CloseApproach)
  | _, [], ns, acc => .ok (ns, acc)
  | j, a :: rest, ns, acc =>
    match a._designation with
    | none => .error .keyError
    | some d =>
      match byDes d with
      | none => .error .keyError
      | some i =>
        match ns[i]? with
        | none => .error .indexError
        | some neo =>
          linkLoop byDes (j + 1) rest
            (ns.set i { neo with approaches := neo.approaches ++ [j] })
            (acc ++ [{ a with neo := some i }])

/-- The linked store: the object collection (with back-references
accumulated) and the approach collection (with `neo` set). -/
structure NEODatabase where
  neos : List NearEarthObject
  approaches : List CloseApproach
  deriving Repr

/-- `NEODatabase.__init__`: build the designation index from the supplied
objects, then run the linking loop; a failed foreign-key resolution
propagates out of construction. -/
def NEODatabase.init (neos : List NearEarthObject)
    (approaches : List CloseApproach) : Except PyError NEODatabase :=
  match linkLoop (neosByDes neos) 0 approaches neos [] with
  | .ok (ns, as) => .ok { neos := ns, approaches := as }
  | .error e => .error e

/-- `NEODatabase.get_neo_by_designation`: index lookup, position fetch; a
`KeyError` or `IndexError` is caught and returned as `None`. -/
def NEODatabase.get_neo_by_designation (db : NEODatabase) (d : String) :
    Option NearEarthObject :=
  match neosByDes db.neos d with
  | none => none
  | some i => db.neos[i]?

/-- `NEODatabase.get_neo_by_name`, same shape keyed by name. -/
def NEODatabase.get_neo_by_name (db : NEODatabase) (nm : String) :
    Option NearEarthObject :=
  match neosByName db.neos nm with
  | none => none
  | some i => db.neos[i]?

/-- The argument `query` is called with: its default `()` (an empty tuple,
not callable), an arbitrary callable boolean predicate, or a composite
`Filter`. -/
inductive QueryArg where
  | emptyTuple
  | callable (p : CloseApproach → Bool)
  | composite (f : Filter)

/-- `filters(approach)` inside the query loop: calling the default empty
tuple raises `TypeError`; a callable predicate or a composite `Filter`
evaluates. -/
def applyQueryArg (neos : List NearEarthObject) :
    QueryArg → CloseApproach → Except PyError Bool
  | .emptyTuple, _ => .error .typeError
  | .callable p, a => .ok (p a)
  | .composite f, a => Filter.call neos f a

/-- The `query` generator run to exhaustion: walk the approaches in order,
keeping those the filter test accepts; an exception from the test propagates
out of the generator. -/
def queryLoop (test : CloseApproach → Except PyError Bool) :
    List CloseApproach → List CloseApproach → Except PyError (List CloseApproach)
  | [], acc => .ok acc
  | a :: rest, acc => do
    let b ← test a
    queryLoop test rest (if b then acc ++ [a] else acc)

/-- `NEODatabase.query`: generate, in construction order, the approaches for
which `filters(approach)` is true. -/
def NEODatabase.query (db : NEODatabase) (filters : QueryArg) :
    Except PyError (List CloseApproach) :=
  queryLoop (applyQueryArg db.neos filters) db.approaches []

/-- One resumption of the `query` generator on a pure predicate: scan the
not-yet-consumed source until the next element satisfying `p`, yielding it
together with the still-unconsumed remainder (`none` when the generator is
exhausted). -/
def genResume {α : Type} (p : α → Bool) : List α → Option (α × List α)
  | [] => none
  | a :: rest => if p a then some (a, rest) else genResume p rest

/-- The spec's reading of one composite-query slot: a present reference
value contributes its comparison, an absent one contributes `True`
(vacuously). -/
def slotCheck {β : Type} (value : Option β) (pred : β → Bool) : Bool :=
  match value with
  | none => true
  | some v => pred v

/-- The positions (counting from `j`) of the approaches in a suffix of the
input whose foreign key resolves to object position `i`: the back-reference
list the linking loop accumulates on that object. -/
def linkedIdxs (byDes : String → Option ℕ) (i : ℕ) : ℕ → List CloseApproach → List ℕ
  | _, [] => []
  | j, a :: rest =>
    if a._designation.bind byDes = some i then j :: linkedIdxs byDes i (j + 1) rest
    else linkedIdxs byDes i (j + 1) rest

/-- A concrete object, the spec's end-to-end example. -/
def rockyNeo : NearEarthObject :=
  { designation := some "A1", name := some "Rocky", diameter := .nan,
    hazardous := false, approaches := [] }

/-- A concrete unlinked approach whose foreign key is `rockyNeo`'s
designation. -/
def rockyApproach : CloseApproach :=
  { _designation := some "A1", time := ⟨840353, 0⟩, distance := .fin (1/2),
    velocity := .fin 10, neo := none }

/-- The linked store built from `rockyNeo` and `rockyApproach`. -/
def rockyDb : NEODatabase :=
  { neos := [{ rockyNeo with approaches := [0] }],
    approaches := [{ rockyApproach with neo := some 0 }] }

/-- An object whose designation is present but is the empty string. -/
def emptyDesNeo : NearEarthObject :=
  { designation := some "", name := none, diameter := .nan,
    hazardous := false, approaches := [] }

/-- An approach whose foreign key resolves against no object. -/
def orphanApproach : CloseApproach :=
  { _designation := some "B2", time := ⟨0, 0⟩, distance := .nan,
    velocity := .nan, neo := none }

/-- C7: `limit(seq, 0)` and `limit(seq, None)` yield the source unmodified
(zero means unlimited, not empty), and for every positive `n` the limiter
yields exactly the first `min(n, length)` elements in source order while
consuming exactly those, leaving the rest of the source unconsumed. -/
theorem limit_contract {α : Type} (seq : List α) :
    limit seq (some 0) = .ok (seq, []) ∧
    limit seq none = .ok (seq, []) ∧
    ∀ n : ℤ, 0 < n →
      limit seq (some n) = .ok (seq.take n.toNat, seq.drop n.toNat) := by
  refine ⟨rfl, rfl, fun n hn => ?_⟩
  have h0 : ¬(some n = some (0 : ℤ)) := by simp; omega
  have h1 : ¬(n < 0) := by omega
  simp [limit, islice, h0, h1]

/-- C10: a negative limit is rejected with `ValueError` at the call itself
(before any element is consumed); it is treated neither as unlimited nor as
empty. -/
theorem limit_negative {α : Type} (seq : List α) (n : ℤ) (hn : n < 0) :
    limit seq (some n) = .error .valueError := by
  have h0 : ¬(some n = some (0 : ℤ)) := by simp; omega
  simp [limit, h0, hn]

/-- Witness for `limit_negative` at `n = -1` on a five-element source. -/
theorem limit_negative_witness :
    limit ([10, 20, 30, 40, 50] : List ℕ) (some (-1)) = .error .valueError :=
  limit_negative [10, 20, 30, 40, 50] (-1) (by decide)

/-- Helper: a `queryLoop` whose test never raises accumulates exactly the
filtered approaches, in order. -/
theorem queryLoop_ok (p : CloseApproach → Bool)
    (test : CloseApproach → Except PyError Bool)
    (h : ∀ a, test a = .ok (p a)) :
    ∀ (xs acc : List CloseApproach),
      queryLoop test xs acc = .ok (acc ++ xs.filter p)
  | [], acc => by simp [queryLoop]
  | a :: rest, acc => by
    rw [queryLoop, h a]
    show queryLoop test rest (if p a then acc ++ [a] else acc) = _
    cases hpa : p a <;>
      simp [hpa, queryLoop_ok p test h rest, List.filter_cons]

/-- Helper: one generator resumption followed by filtering the unconsumed
remainder gives the filter of the whole source. -/
theorem genResume_filter {α : Type} (p : α → Bool) :
    ∀ xs : List α,
      (genResume p xs).elim [] (fun ar => ar.1 :: ar.2.filter p) = xs.filter p
  | [] => rfl
  | a :: rest => by
    cases hpa : p a <;>
      simp [genResume, hpa, List.filter_cons, genResume_filter p rest]

/-- Helper: a generator resumption never inspects the source beyond the
element it yields — resuming on `xs ++ ys` is resuming on `xs`, with `ys`
still unconsumed, and falls through to `ys` only when `xs` is exhausted. -/
theorem genResume_append {α : Type} (p : α → Bool) :
    ∀ xs ys : List α,
      genResume p (xs ++ ys) =
        (genResume p xs).elim (genResume p ys) (fun ar => some (ar.1, ar.2 ++ ys))
  | [], ys => rfl
  | a :: rest, ys => by
    cases hpa : p a <;> simp [genResume, hpa, genResume_append p rest ys]

/-- C3: for every callable boolean predicate, `query` produces exactly the
approaches of the full collection satisfying it, in construction order; the
generator produces them element by element (each resumption scans only up to
the element it yields, leaving the rest unconsumed), and each `query` call
starts afresh from the full collection. -/
theorem query_callable (db : NEODatabase) (p : CloseApproach → Bool) :
    db.query (.callable p) = .ok (db.approaches.filter p) ∧
    (∀ xs : List CloseApproach,
      (genResume p xs).elim [] (fun ar => ar.1 :: ar.2.filter p) = xs.filter p) ∧
    (∀ xs ys : List CloseApproach,
      genResume p (xs ++ ys) =
        (genResume p xs).elim (genResume p ys)
          (fun ar => some (ar.1, ar.2 ++ ys))) := by
  refine ⟨?_, genResume_filter p, genResume_append p⟩
  have h : ∀ a, applyQueryArg db.neos (.callable p) a = .ok (p a) :=
    fun _ => rfl
  simpa using queryLoop_ok p _ h db.approaches []

/-- Helper: NaN on the left never satisfies `<=`. -/
theorem pyLe_nan_left : ∀ x, pyLe .nan x = false
  | .nan => rfl
  | .inf true => rfl
  | .inf false => rfl
  | .fin _ => rfl

/-- Helper: NaN on the right never satisfies `<=`. -/
theorem pyLe_nan_right : ∀ x, pyLe x .nan = false
  | .nan => rfl
  | .inf true => rfl
  | .inf false => rfl
  | .fin _ => rfl

/-- Helper: NaN on the left never satisfies `==`. -/
theorem pyEq_nan_left : ∀ x, pyEq .nan x = false
  | .nan => rfl
  | .inf true => rfl
  | .inf false => rfl
  | .fin _ => rfl

/-- Helper: `<=` on two finite floats is the rational comparison. -/
theorem pyLe_fin (a b : ℚ) : pyLe (.fin a) (.fin b) = decide (a ≤ b) := rfl

/-- Helper: a skip-or-AND slot step is an AND with the slot's vacuous-truth
reading. -/
theorem slotAnd_eq {β : Type} (r : Bool) (o : Option β) (g : β → Bool) :
    slotAnd r o g = (r && slotCheck o g) := by
  cases o <;> cases r <;> rfl

/-- Helper: a raising slot step whose accessor succeeds is the same AND,
inside `pure`. -/
theorem slotAndE_ok {β : Type} (r : Bool) (o : Option β) (x : β)
    (g : β → β → Bool) :
    slotAndE r o (.ok x) g = pure (r && slotCheck o (g x)) := by
  cases o <;> cases r <;> rfl

/-- Helper: a composite constrained only by `distance_max = X` evaluates,
on any approach, to exactly `approach.distance <= X` (never raising: the
slots that reach through the linked object are unconstrained). -/
theorem distance_max_call (neos : List NearEarthObject) (X : PyFloat)
    (a : CloseApproach) :
    Filter.call neos
      (create_filters none none none none (some X) none none none none none) a
      = .ok (pyLe a.distance X) := rfl

/-- C8: a NaN distance satisfies none of `<=`, `>=`, `=` against any
reference value; consequently a composite constrained only by
`distance_max = X` evaluates to false on every NaN-distance approach, and a
query with that composite yields exactly the approaches whose distance is
`<= X` (ties included), never a NaN-distance one. -/
theorem distance_nan_filter (X : PyFloat) (a : CloseApproach)
    (neos : List NearEarthObject) :
    (a.distance = .nan →
      pyLe a.distance X = false ∧ pyGe a.distance X = false ∧
      pyEq a.distance X = false ∧
      Filter.call neos
        (create_filters none none none none (some X) none none none none none) a
        = .ok false) ∧
    Filter.call neos
      (create_filters none none none none (some X) none none none none none) a
      = .ok (pyLe a.distance X) ∧
    ∀ db : NEODatabase,
      db.query (.composite
          (create_filters none none none none (some X) none none none none none))
        = .ok (db.approaches.filter fun b => pyLe b.distance X) := by
  refine ⟨fun h => ?_, distance_max_call neos X a, fun db => ?_⟩
  · have hle : pyLe PyFloat.nan X = false := pyLe_nan_left X
    have hge : pyGe PyFloat.nan X = false := pyLe_nan_right X
    have heq : pyEq PyFloat.nan X = false := pyEq_nan_left X
    rw [h]
    exact ⟨hle, hge, heq, by rw [distance_max_call, h, hle]⟩
  · have h : ∀ b, applyQueryArg db.neos
        (.composite (create_filters none none none none (some X) none none none none none)) b
        = .ok (pyLe b.distance X) :=
      fun b => distance_max_call db.neos X b
    simpa using queryLoop_ok _ _ h db.approaches []

/-- C5: a composite built by `create_filters` evaluates, on a linked
approach, to the AND of exactly the present (non-`None`) slots — vacuously
true when all ten are absent — the exact date with `=`, the minimums (start
date included) with `>=` on the slot's attribute, the maximums (end date
included) with `<=`, and the hazard flag with `=`, each against the slot's
kind-specific attribute of the approach. -/
theorem create_filters_call (date start_date end_date : Option ℤ)
    (distance_min distance_max velocity_min velocity_max : Option PyFloat)
    (diameter_min diameter_max : Option PyFloat) (hazardous : Option Bool)
    (neos : List NearEarthObject) (a : CloseApproach)
    (i : ℕ) (neo : NearEarthObject)
    (href : a.neo = some i) (hneo : neos[i]? = some neo) :
    Filter.call neos
      (create_filters date start_date end_date distance_min distance_max
        velocity_min velocity_max diameter_min diameter_max hazardous) a
      = .ok (slotCheck date (fun v => decide (a.time.date = v)) &&
             slotCheck start_date (fun v => decide (v ≤ a.time.date)) &&
             slotCheck end_date (fun v => decide (a.time.date ≤ v)) &&
             slotCheck distance_min (fun v => pyGe a.distance v) &&
             slotCheck distance_max (fun v => pyLe a.distance v) &&
             slotCheck velocity_min (fun v => pyGe a.velocity v) &&
             slotCheck velocity_max (fun v => pyLe a.velocity v) &&
             slotCheck diameter_min (fun v => pyGe neo.diameter v) &&
             slotCheck diameter_max (fun v => pyLe neo.diameter v) &&
             slotCheck hazardous (fun v => neo.hazardous == v)) := by
  have hd : DiameterFilter.get neos a = .ok neo.diameter := by
    simp [DiameterFilter.get, heapGet, href, hneo, Except.map]
  have hh : HazardousFilter.get neos a = .ok neo.hazardous := by
    simp [HazardousFilter.get, heapGet, href, hneo, Except.map]
  simp only [Filter.call, create_filters, hd, hh, slotAnd_eq, slotAndE_ok,
    cmpDate, cmpFloat, cmpBool, DateFilter.get, DistanceFilter.get,
    VelocityFilter.get, pure_bind, Bool.true_and, Bool.and_assoc]
  rfl

/-- Witness for `create_filters_call`: the spec's example approach against a
composite with seven slots constrained evaluates to true. -/
theorem create_filters_call_witness :
    Filter.call rockyDb.neos
      (create_filters (some 840353) (some 840000) (some 840400)
        (some (.fin 0)) (some (.fin 1)) (some (.fin 5)) (some (.fin 20))
        none none (some false)) { rockyApproach with neo := some 0 }
      = .ok true := by
  have h := create_filters_call (some 840353) (some 840000) (some 840400)
    (some (.fin 0)) (some (.fin 1)) (some (.fin 5)) (some (.fin 20))
    none none (some false) rockyDb.neos { rockyApproach with neo := some 0 }
    0 { rockyNeo with approaches := [0] } rfl rfl
  rw [h]
  simp only [slotCheck, rockyApproach, rockyNeo, pyLe_fin, pyGe]
  norm_num

/-- C1 (code vs documented intent): on a store holding one approach,
`query` invoked with no predicate — its default `filters=()` — raises
`TypeError` the moment the generator is advanced (an empty tuple is not
callable), yielding nothing; by contrast the all-unconstrained composite
does yield the full approach collection, as the docstring promises for the
no-argument call. -/
theorem query_default_raises :
    (NEODatabase.init [rockyNeo] [rockyApproach]).bind
        (fun db => db.query .emptyTuple) = .error .typeError ∧
    (NEODatabase.init [rockyNeo] [rockyApproach]).bind
        (fun db => db.query (.composite
          (create_filters none none none none none none none none none none)))
      = .ok [{ rockyApproach with neo := some 0 }] :=
  ⟨rfl, rfl⟩

/-- C6 counterexample: an object whose designation is present but empty is
indexed (the index construction only skips a `None` designation), so
`get_neo_by_designation ""` returns it instead of "not found". -/
theorem get_by_empty_designation_hits :
    (NEODatabase.init [emptyDesNeo] []).map
        (fun db => db.get_neo_by_designation "") = .ok (some emptyDesNeo) ∧
    some emptyDesNeo ≠ (none : Option NearEarthObject) :=
  ⟨rfl, by simp⟩

/-- Helper: the designation index hits exactly when some object carries the
looked-up designation (last write wins on duplicates, but hit-or-miss is
membership). -/
theorem desIndexGo_isSome (d : String) :
    ∀ (rest : List NearEarthObject) (j : ℕ) (acc : Option ℕ),
      (desIndexGo d j acc rest).isSome
        = (acc.isSome || rest.any fun neo => decide (neo.designation = some d))
  | [], j, acc => by simp [desIndexGo]
  | neo :: rest, j, acc => by
    rw [desIndexGo, desIndexGo_isSome d rest (j + 1)]
    cases hdes : neo.designation with
    | none => simp [hdes]
    | some des =>
      by_cases heq : des = d
      · subst heq
        simp [hdes]
      · simp [hdes, heq]

/-- C6 amended: the designation index covers every object whose designation
is present (not `None`) — the empty string included — and only such
objects. -/
theorem neosByDes_covers (neos : List NearEarthObject) (d : String) :
    (neosByDes neos d).isSome ↔ ∃ neo ∈ neos, neo.designation = some d := by
  rw [neosByDes]
  have h := desIndexGo_isSome d neos 0 none
  rw [show (none : Option ℕ) = Option.none from rfl] at h
  simp only [h, Option.isSome_none, Bool.false_or, List.any_eq_true,
    decide_eq_true_eq]

/-- Helper: a position the designation dict yields is either the seed or a
position within the walked objects. -/
theorem desIndexGo_lt (d : String) :
    ∀ (rest : List NearEarthObject) (j : ℕ) (acc : Option ℕ) (k : ℕ),
      desIndexGo d j acc rest = some k → acc = some k ∨ k < j + rest.length
  | [], _, _, _ => fun h => .inl h
  | neo :: rest, j, acc, k => fun h => by
    rw [desIndexGo] at h
    have ih := desIndexGo_lt d rest (j + 1) _ k h
    cases hdes : neo.designation with
    | none =>
      simp only [hdes] at ih
      rcases ih with h1 | h1
      · exact .inl h1
      · right
        simp only [List.length_cons]
        omega
    | some des =>
      simp only [hdes] at ih
      by_cases heq : des = d
      · rw [if_pos heq] at ih
        rcases ih with h1 | h1
        · injection h1 with h2
          right
          simp only [List.length_cons]
          omega
        · right
          simp only [List.length_cons]
          omega
      · rw [if_neg heq] at ih
        rcases ih with h1 | h1
        · exact .inl h1
        · right
          simp only [List.length_cons]
          omega

/-- Helper: an index the designation lookup yields is a position in the
object list. -/
theorem neosByDes_lt (neos : List NearEarthObject) (d : String) (i : ℕ)
    (h : neosByDes neos d = some i) : i < neos.length := by
  rcases desIndexGo_lt d neos 0 none i h with h1 | h1
  · cases h1
  · omega

/-- Helper: the linking loop hits `KeyError` whenever some remaining
approach's foreign key fails to resolve. -/
theorem linkLoop_unresolved (byDes : String → Option ℕ) :
    ∀ (rest : List CloseApproach) (j : ℕ) (ns : List NearEarthObject)
      (acc : List CloseApproach),
      (∀ d i, byDes d = some i → i < ns.length) →
      (∃ a ∈ rest, a._designation.bind byDes = none) →
      linkLoop byDes j rest ns acc = .error .keyError
  | [], _, _, _ => fun _ hex => absurd hex (by simp)
  | a :: rest, j, ns, acc => fun hb hex => by
    cases hdes : a._designation with
    | none => simp [linkLoop, hdes]
    | some d =>
      cases hbd : byDes d with
      | none => simp [linkLoop, hdes, hbd]
      | some i =>
        have hlt : i < ns.length := hb d i hbd
        obtain ⟨neo, hget⟩ : ∃ neo, ns[i]? = some neo :=
          ⟨_, List.getElem?_eq_getElem hlt⟩
        rw [linkLoop, hdes]
        simp only [hbd, hget]
        apply linkLoop_unresolved byDes rest (j + 1) _ _
        · intro d2 i2 h2
          have := hb d2 i2 h2
          simpa using this
        · rcases hex with ⟨b, hmem, hres⟩
          rcases List.mem_cons.mp hmem with rfl | hmem2
          · rw [hdes] at hres
            simp [hbd] at hres
          · exact ⟨b, hmem2, hres⟩

/-- C4: if any approach's foreign key fails to resolve against the
designation index, store construction propagates a `KeyError` — no store
value is produced, so no query is possible, and the unresolved approach is
not silently skipped. -/
theorem init_unresolved (neos : List NearEarthObject)
    (approaches : List CloseApproach)
    (h : ∃ a ∈ approaches, a._designation.bind (neosByDes neos) = none) :
    NEODatabase.init neos approaches = .error .keyError := by
  have hl := linkLoop_unresolved (neosByDes neos) approaches 0 neos []
    (fun d i hdi => neosByDes_lt neos d i hdi) h
  simp [NEODatabase.init, hl]

/-- Witness for `init_unresolved`: an approach with foreign key `"B2"` over
an empty object collection aborts construction with `KeyError`. -/
theorem init_unresolved_witness :
    NEODatabase.init [] [orphanApproach] = .error .keyError :=
  init_unresolved [] [orphanApproach]
    ⟨orphanApproach, List.mem_singleton_self _, rfl⟩

/-- C9 counterexample: a numeric field that is present but does not parse as
a number raises `ValueError` from `float()` during record construction — it
does not resolve to the NaN sentinel — for an object's diameter, for an
approach's distance, and for an approach's velocity alike. -/
theorem make_malformed_raises :
    NearEarthObject.make
        { pdes := some "A1", name := none, diameter := some "abc", pha := none }
      = .error .valueError ∧
    CloseApproach.make
        { des := some "A1", cd := some "2020-Jan-01 00:00", dist := some "abc",
          v_rel := none }
      = .error .valueError ∧
    CloseApproach.make
        { des := some "A1", cd := some "2020-Jan-01 00:00", dist := none,
          v_rel := some "abc" }
      = .error .valueError :=
  ⟨rfl, rfl, rfl⟩

/-- Helper: monadic bind on a successful `Except` value. -/
theorem exceptBind_ok {α β : Type} (a : α) (f : α → Except PyError β) :
    (Except.ok a : Except PyError α) >>= f = f a := rfl

/-- Helper: monadic bind on a failed `Except` value. -/
theorem exceptBind_error {α β : Type} (e : PyError) (f : α → Except PyError β) :
    (Except.error e : Except PyError α) >>= f = Except.error e := rfl

/-- C9 amended: a missing numeric field — and, for the object's diameter
only, an empty string — yields the NaN sentinel for that field (diameter,
distance and velocity each, independently of the other fields); a numeric
field present with a non-empty ASCII string that does not parse as a number
instead raises `ValueError` during construction — again for diameter,
distance and velocity each. -/
theorem numeric_field_handling :
    (∀ info : NeoInfo, info.diameter = none ∨ info.diameter = some "" →
      (NearEarthObject.make info).map NearEarthObject.diameter = .ok .nan) ∧
    (∀ (info : CadInfo) (t : PyDateTime) (w : PyFloat),
      cd_to_datetime info.cd = .ok t → info.dist = none →
      pyFloatOfString (info.v_rel.getD "nan") = .ok w →
      (CloseApproach.make info).map CloseApproach.distance = .ok .nan) ∧
    (∀ (info : CadInfo) (t : PyDateTime) (w : PyFloat),
      cd_to_datetime info.cd = .ok t → info.v_rel = none →
      pyFloatOfString (info.dist.getD "nan") = .ok w →
      (CloseApproach.make info).map CloseApproach.velocity = .ok .nan) ∧
    (∀ (info : NeoInfo) (s : String), info.diameter = some s → s ≠ "" →
      s.data.all isAsciiChar →
      pyFloatOfString s = .error .valueError →
      NearEarthObject.make info = .error .valueError) ∧
    (∀ (info : CadInfo) (s : String) (t : PyDateTime),
      cd_to_datetime info.cd = .ok t → info.dist = some s →
      s.data.all isAsciiChar →
      pyFloatOfString s = .error .valueError →
      CloseApproach.make info = .error .valueError) ∧
    (∀ (info : CadInfo) (s : String) (t : PyDateTime) (w : PyFloat),
      cd_to_datetime info.cd = .ok t →
      pyFloatOfString (info.dist.getD "nan") = .ok w →
      info.v_rel = some s → s.data.all isAsciiChar →
      pyFloatOfString s = .error .valueError →
      CloseApproach.make info = .error .valueError) := by
  have hnan : pyFloatOfString "nan" = .ok .nan := rfl
  refine ⟨fun info hd => ?_, fun info t w hcd hd hw => ?_,
    fun info t w hcd hv hw => ?_, fun info s hd hs _ hp => ?_,
    fun info s t hcd hd _ hp => ?_, fun info s t w hcd hw hv _ hp => ?_⟩
  · rcases hd with hd | hd <;>
      simp [NearEarthObject.make, hd, hnan, Except.map, exceptBind_ok,
        exceptBind_error]
  · simp [CloseApproach.make, hcd, hd, hw, hnan, Except.map, exceptBind_ok,
      exceptBind_error]
  · simp [CloseApproach.make, hcd, hv, hw, hnan, Except.map, exceptBind_ok,
      exceptBind_error]
  · simp [NearEarthObject.make, hd, hs, hp, Except.map, exceptBind_ok,
      exceptBind_error]
  · simp [CloseApproach.make, hcd, hd, hp, Except.map, exceptBind_ok,
      exceptBind_error]
  · simp [CloseApproach.make, hcd, hw, hv, hp, Except.map, exceptBind_ok,
      exceptBind_error]

/-- Helper: a successful linking run preserves the object-list length. -/
theorem linkLoop_ok_length (byDes : String → Option ℕ) :
    ∀ (rest : List CloseApproach) (j : ℕ) (ns : List NearEarthObject)
      (acc : List CloseApproach) (ns2 : List NearEarthObject)
      (as2 : List CloseApproach),
      linkLoop byDes j rest ns acc = .ok (ns2, as2) → ns2.length = ns.length
  | [], j, ns, acc, ns2, as2 => fun h => by
    rw [linkLoop] at h
    cases h
    rfl
  | a :: rest, j, ns, acc, ns2, as2 => fun h => by
    rw [linkLoop] at h
    cases hdes : a._designation with
    | none => simp [hdes] at h
    | some d =>
      cases hbd : byDes d with
      | none => simp [hdes, hbd] at h
      | some i =>
        cases hget : ns[i]? with
        | none => simp [hdes, hbd, hget] at h
        | some neo =>
          simp only [hdes, hbd, hget] at h
          have ih := linkLoop_ok_length byDes rest (j + 1) _ _ _ _ h
          simpa using ih

/-- Helper: a successful linking run returns the input approaches in order,
each with its object reference set to what its foreign key resolves to. -/
theorem linkLoop_ok_approaches (byDes : String → Option ℕ) :
    ∀ (rest : List CloseApproach) (j : ℕ) (ns : List NearEarthObject)
      (acc : List CloseApproach) (ns2 : List NearEarthObject)
      (as2 : List CloseApproach),
      linkLoop byDes j rest ns acc = .ok (ns2, as2) →
      as2 = acc ++ rest.map (fun a => { a with neo := a._designation.bind byDes })
  | [], j, ns, acc, ns2, as2 => fun h => by
    rw [linkLoop] at h
    cases h
    simp
  | a :: rest, j, ns, acc, ns2, as2 => fun h => by
    rw [linkLoop] at h
    cases hdes : a._designation with
    | none => simp [hdes] at h
    | some d =>
      cases hbd : byDes d with
      | none => simp [hdes, hbd] at h
      | some i =>
        cases hget : ns[i]? with
        | none => simp [hdes, hbd, hget] at h
        | some neo =>
          simp only [hdes, hbd, hget] at h
          have ih := linkLoop_ok_approaches byDes rest (j + 1) _ _ _ _ h
          rw [ih]
          simp [hdes, hbd]

/-- Helper: after a successful linking run, each object's back-reference
list has gained exactly the positions of the remaining approaches whose
foreign key resolves to it, in order. -/
theorem linkLoop_ok_neos (byDes : String → Option ℕ) :
    ∀ (rest : List CloseApproach) (j : ℕ) (ns : List NearEarthObject)
      (acc : List CloseApproach) (ns2 : List NearEarthObject)
      (as2 : List CloseApproach),
      linkLoop byDes j rest ns acc = .ok (ns2, as2) →
      ∀ (i : ℕ) (neo : NearEarthObject), ns[i]? = some neo →
        ns2[i]? = some { neo with
          approaches := neo.approaches ++ linkedIdxs byDes i j rest }
  | [], j, ns, acc, ns2, as2 => fun h i neo hneo => by
    rw [linkLoop] at h
    cases h
    simpa [linkedIdxs] using hneo
  | a :: rest, j, ns, acc, ns2, as2 => fun h i neo hneo => by
    rw [linkLoop] at h
    cases hdes : a._designation with
    | none => simp [hdes] at h
    | some d =>
      cases hbd : byDes d with
      | none => simp [hdes, hbd] at h
      | some i0 =>
        cases hget : ns[i0]? with
        | none => simp [hdes, hbd, hget] at h
        | some neo0 =>
          simp only [hdes, hbd, hget] at h
          rw [linkedIdxs]
          simp only [hdes, Option.some_bind, hbd]
          by_cases hi : i0 = i
          · subst hi
            have heq : neo = neo0 := by
              rw [hneo] at hget
              injection hget
            subst heq
            have hlt : i0 < ns.length := (List.getElem?_eq_some.mp hneo).1
            have hset : (ns.set i0
                { neo with approaches := neo.approaches ++ [j] })[i0]?
                = some { neo with approaches := neo.approaches ++ [j] } :=
              List.getElem?_set_eq_of_lt _ hlt
            have ih := linkLoop_ok_neos byDes rest (j + 1) _ _ _ _ h i0 _ hset
            rw [ih, if_pos rfl]
            simp
          · have hset : (ns.set i0
                { neo0 with approaches := neo0.approaches ++ [j] })[i]?
                = some neo := by
              rw [List.getElem?_set_ne hi]
              exact hneo
            have ih := linkLoop_ok_neos byDes rest (j + 1) _ _ _ _ h i _ hset
            rw [ih, if_neg (by simp [hi])]

/-- Helper: membership in the accumulated back-reference positions is
exactly "some remaining approach at that offset resolves here". -/
theorem linkedIdxs_mem (byDes : String → Option ℕ) (i : ℕ) :
    ∀ (rest : List CloseApproach) (j k : ℕ),
      k ∈ linkedIdxs byDes i j rest ↔
        ∃ (m : ℕ) (a : CloseApproach), rest[m]? = some a ∧ k = j + m ∧
          a._designation.bind byDes = some i
  | [], j, k => by simp [linkedIdxs]
  | a :: rest, j, k => by
    rw [linkedIdxs]
    by_cases hc : a._designation.bind byDes = some i
    · rw [if_pos hc]
      constructor
      · intro hk
        rcases List.mem_cons.mp hk with rfl | hk2
        · exact ⟨0, a, by simp, by omega, hc⟩
        · obtain ⟨m, b, hmb, hkm, hres⟩ :=
            (linkedIdxs_mem byDes i rest (j + 1) k).mp hk2
          exact ⟨m + 1, b, by simpa using hmb, by omega, hres⟩
      · rintro ⟨m, b, hmb, hkm, hres⟩
        cases m with
        | zero =>
          have hb : a = b := by
            simpa using hmb
          subst hb
          have hk : k = j := by omega
          subst hk
          exact List.mem_cons_self _ _
        | succ m2 =>
          refine List.mem_cons_of_mem _ ?_
          exact (linkedIdxs_mem byDes i rest (j + 1) k).mpr
            ⟨m2, b, by simpa using hmb, by omega, hres⟩
    · rw [if_neg hc]
      constructor
      · intro hk
        obtain ⟨m, b, hmb, hkm, hres⟩ :=
          (linkedIdxs_mem byDes i rest (j + 1) k).mp hk
        exact ⟨m + 1, b, by simpa using hmb, by omega, hres⟩
      · rintro ⟨m, b, hmb, hkm, hres⟩
        cases m with
        | zero =>
          have hb : a = b := by
            simpa using hmb
          subst hb
          exact absurd hres hc
        | succ m2 =>
          exact (linkedIdxs_mem byDes i rest (j + 1) k).mpr
            ⟨m2, b, by simpa using hmb, by omega, hres⟩

/-- Helper: the accumulated back-reference positions are strictly
increasing — input order, each position at most once. -/
theorem linkedIdxs_pairwise (byDes : String → Option ℕ) (i : ℕ) :
    ∀ (rest : List CloseApproach) (j : ℕ),
      (linkedIdxs byDes i j rest).Pairwise (· < ·)
  | [], j => by simp [linkedIdxs]
  | a :: rest, j => by
    rw [linkedIdxs]
    by_cases hc : a._designation.bind byDes = some i
    · rw [if_pos hc]
      refine List.Pairwise.cons (fun k hk => ?_)
        (linkedIdxs_pairwise byDes i rest (j + 1))
      obtain ⟨m, b, _, hkm, _⟩ :=
        (linkedIdxs_mem byDes i rest (j + 1) k).mp hk
      omega
    · rw [if_neg hc]
      exact linkedIdxs_pairwise byDes i rest (j + 1)

/-- C2: after a successful construction from unlinked collections, for every
object O of the store (position `i`): every position in `O.approaches`
denotes an approach whose object reference is O; conversely every approach
whose object reference is O appears exactly once in `O.approaches`; and
`O.approaches` lists those approaches in the input order (strictly
increasing positions). -/
theorem link_invariant (neos : List NearEarthObject)
    (approaches : List CloseApproach) (db : NEODatabase)
    (hinit : NEODatabase.init neos approaches = .ok db)
    (hunlinked : ∀ neo ∈ neos, neo.approaches = []) :
    ∀ (i : ℕ) (O : NearEarthObject), db.neos[i]? = some O →
      (∀ j ∈ O.approaches,
        ∃ a, db.approaches[j]? = some a ∧ a.neo = some i) ∧
      (∀ (j : ℕ) (a : CloseApproach), db.approaches[j]? = some a →
        a.neo = some i → O.approaches.count j = 1) ∧
      O.approaches.Pairwise (· < ·) := by
  rcases hlink : linkLoop (neosByDes neos) 0 approaches neos [] with e | pair
  · simp [NEODatabase.init, hlink] at hinit
  obtain ⟨ns, as⟩ := pair
  simp only [NEODatabase.init, hlink] at hinit
  have hdb : db = { neos := ns, approaches := as } := by
    cases hinit
    rfl
  subst hdb
  intro i O hO
  have hlen : ns.length = neos.length :=
    linkLoop_ok_length (neosByDes neos) approaches 0 neos [] ns as hlink
  have has : as = approaches.map
      (fun a => { a with neo := a._designation.bind (neosByDes neos) }) := by
    have := linkLoop_ok_approaches (neosByDes neos) approaches 0 neos [] ns as
      hlink
    simpa using this
  have hi : i < neos.length := by
    have : i < ns.length := (List.getElem?_eq_some.mp hO).1
    omega
  obtain ⟨neo0, hneo0⟩ : ∃ neo0, neos[i]? = some neo0 :=
    ⟨_, List.getElem?_eq_getElem hi⟩
  have hO2 := linkLoop_ok_neos (neosByDes neos) approaches 0 neos [] ns as
    hlink i neo0 hneo0
  have hOeq : O = { neo0 with
      approaches := linkedIdxs (neosByDes neos) i 0 approaches } := by
    rw [hO] at hO2
    have h0 : neo0.approaches = [] :=
      hunlinked neo0 (List.getElem?_mem hneo0)
    injection hO2 with h3
    rw [h3, h0]
    simp
  have hOapp : O.approaches = linkedIdxs (neosByDes neos) i 0 approaches := by
    rw [hOeq]
  refine ⟨fun j hj => ?_, fun j a hja hneo => ?_, ?_⟩
  · rw [hOapp] at hj
    obtain ⟨m, a, hma, hjm, hres⟩ :=
      (linkedIdxs_mem (neosByDes neos) i approaches 0 j).mp hj
    refine ⟨{ a with neo := a._designation.bind (neosByDes neos) }, ?_, ?_⟩
    · rw [has, List.getElem?_map, hjm]
      simp [hma]
    · simpa using hres
  · rw [has, List.getElem?_map] at hja
    obtain ⟨a0, ha0, ha0a⟩ := Option.map_eq_some'.mp hja
    have hres : a0._designation.bind (neosByDes neos) = some i := by
      rw [← ha0a] at hneo
      simpa using hneo
    have hjmem : j ∈ O.approaches := by
      rw [hOapp]
      exact (linkedIdxs_mem (neosByDes neos) i approaches 0 j).mpr
        ⟨j, a0, ha0, by omega, hres⟩
    have hnd : O.approaches.Nodup := by
      rw [hOapp]
      exact (linkedIdxs_pairwise (neosByDes neos) i approaches 0).nodup
    exact List.count_eq_one_of_mem hnd hjmem
  · rw [hOapp]
    exact linkedIdxs_pairwise (neosByDes neos) i approaches 0

/-- Witness for `link_invariant`: the one-object, one-approach store — the
object's back-reference list is the strictly increasing `[0]`. -/
theorem link_invariant_witness :
    (rockyDb.neos[0]?.getD rockyNeo).approaches.Pairwise (· < ·) := by
  have h := link_invariant [rockyNeo] [rockyApproach] rockyDb rfl
    (by intro neo hneo
        simp only [List.mem_singleton] at hneo
        subst hneo
        rfl)
    0 { rockyNeo with approaches := [0] } rfl
  exact h.2.2

end NEO
